import Mathlib

/-!
Verification development for the embedding batcher of the repolens-core
gateway (src/tensor/app/services/batcher.py and
src/tensor/app/routes/embeddings.py), as a shallow embedding in Lean 4.

Modelling conventions:

* A vector (list of floats produced by a provider) is modelled as a list of
  integers; the batcher never computes with vector entries, it only moves
  them around, so the carrier type is irrelevant.
* The SHA-256 digest in sha_key is an abstract parameter
  hash : String → String applied to the concatenation of the parts, exactly
  as the Python code feeds each part to h.update and takes one digest.
* The redis connection is modelled by Store: a value table val plus two
  failure switches. storeMget returns one entry per key (the redis mget
  contract) unless the connection fails, in which case it raises; storeSet
  either succeeds or raises. The batcher holds Option Store, none modelling
  an absent connection (self.redis is None).
* json.dumps of a vector is CacheVal.enc; json.loads is jsonDecode, which
  fails on bytes that are not an encoded vector (CacheVal.malformed).
* Raised exceptions are Except.error with a label naming the Python
  exception. asyncio futures: set_result and set_exception are guarded by
  cancelled() in the source but not by done(); per the asyncio contract,
  set_exception on a future that already holds a result raises
  InvalidStateError. deliverJobs tracks this with its anyDone flag and the
  crashed field of BatchOutcome: crashed = true means the exception escaped
  _process_batch and killed the run loop.
* Queue timing is abstracted: formBatch receives the list of items that the
  loop obtains from the queue within its wait window, takes the blocking
  first item and then greedily up to max_batch - 1 more, with no inspection
  of the items (the loop in EmbedBatcher.run has no adapter check).
-/

/-- A provider vector; entries are opaque payload. -/
abbrev Vec := List Int

/-- A value stored in the cache: either json.dumps of a vector, or bytes
that json.loads rejects. -/
inductive CacheVal where
  | enc (v : Vec)
  | malformed
deriving DecidableEq, Repr

/-- Model of json.loads on a stored cache value. -/
def jsonDecode : CacheVal → Option Vec
  | .enc v => some v
  | .malformed => none

/-- Model of the redis connection: a table of stored values and two
failure switches for the two operations the batcher uses. -/
structure Store where
  val : String → Option CacheVal
  mgetFails : Bool
  setFails : Bool

/-- redis mget: one entry per key, or a raised connection error. -/
def storeMget (s : Store) (keys : List String) :
    Except String (List (Option CacheVal)) :=
  if s.mgetFails then .error "redis mget error" else .ok (keys.map s.val)

/-- redis set with TTL: returns nothing, or raises a connection error. -/
def storeSet (s : Store) (_key : String) (_v : CacheVal) :
    Except String Unit :=
  if s.setFails then .error "redis set error" else .ok ()

/-- A store that answers the probe from a fixed table of decoded vectors
and never fails; used to state theorems about the healthy cache path. -/
def goodStore (σ : String → Option Vec) : Store :=
  { val := fun k => (σ k).map CacheVal.enc, mgetFails := false,
    setFails := false }

/-- Model of sha_key in batcher.py: one digest over the concatenation of
the parts.  The digest function itself is the parameter hash. -/
def sha_key (hash : String → String) (parts : List String) : String :=
  hash (String.join parts)

/-- Model of a provider adapter (BaseAdapter): its identity and its
embed_batch callable, which may raise and may return any list. -/
structure Adapter where
  name : String
  version : String
  embedBatch : List String → Except String (List Vec)

/-- The cache key the batcher computes for one text under one adapter. -/
def keyFor (hash : String → String) (a : Adapter) (t : String) : String :=
  sha_key hash [a.name, a.version, t]

/-- A queued work item: (job_uuid, adapter, inputs, future).  The job id is
a natural number standing for the uuid4 string; the future is implicit (it
is identified with the item). -/
structure Job where
  id : Nat
  adapter : Adapter
  inputs : List String

/-- The tuple a resolved future carries:
(adapter name, adapter version, vectors, cached flags).  A vector slot is
none when the Python list still holds None at fan-out time. -/
structure JobResult where
  adapterName : String
  adapterVersion : String
  vectors : List (Option Vec)
  cached : List Bool
deriving DecidableEq, Repr

/-- What one waiter observes after _process_batch ran: its result, the
batch error, or nothing at all (its future was never resolved). -/
inductive JobOutcome where
  | result (r : JobResult)
  | failed (e : String)
  | noResponse
deriving DecidableEq, Repr

/-- The observable effect of one _process_batch call: the outcome seen by
each waiter, in batch order, and whether an exception escaped the method
(killing the run loop). -/
structure BatchOutcome where
  outcomes : List JobOutcome
  crashed : Bool
deriving DecidableEq, Repr

/-- The response dict process_embed_request returns. -/
structure EmbedResponse where
  adapterName : String
  adapterVersion : String
  vectors : List Vec
  cached : List Bool
deriving DecidableEq, Repr

/-- What the submitter does with one request: answer it directly from the
cache, or enqueue one work item carrying all the inputs. -/
inductive SubmitOutcome where
  | fast (r : EmbedResponse)
  | enqueued (inputs : List String)
deriving DecidableEq, Repr

/-- The fast-path decode loop: vectors = [json.loads(x) for x in cached].
json.loads raises on malformed bytes (and on a missing entry, which the
all-hit guard rules out). -/
def decodeAll : List (Option CacheVal) → Except String (List Vec)
  | [] => .ok []
  | none :: _ => .error "TypeError"
  | some cv :: rest =>
    match jsonDecode cv with
    | none => .error "JSONDecodeError"
    | some v => (decodeAll rest).map (v :: ·)

/-- Model of EmbedBatcher.process_embed_request up to the enqueue: compute
the keys, probe the cache when a connection exists, answer directly when
every position hits, otherwise enqueue all inputs as one work item.
Exceptions (a failing mget, a malformed hit) propagate to the caller: the
source wraps none of this in try/except. -/
def processEmbedRequest (hash : String → String) (st : Option Store)
    (a : Adapter) (inputs : List String) : Except String SubmitOutcome :=
  let keys := inputs.map (keyFor hash a)
  match st with
  | none => .ok (.enqueued inputs)
  | some s => do
    let cached ← storeMget s keys
    if cached.all (·.isSome) then do
      let vectors ← decodeAll cached
      .ok (.fast { adapterName := a.name, adapterVersion := a.version,
                   vectors := vectors,
                   cached := List.replicate vectors.length true })
    else
      .ok (.enqueued inputs)

/-- The cache re-probe loop of _process_batch over
zip flat_inputs cached_results: a missing entry leaves the vector slot at
none with cached flag false; a present entry is decoded (json.loads raises
on malformed bytes) and flagged true. -/
def cacheScan : List (String × Option CacheVal) →
    Except String (List (Option Vec × Bool))
  | [] => .ok []
  | (_, none) :: rest => (cacheScan rest).map ((none, false) :: ·)
  | (_, some cv) :: rest =>
    match jsonDecode cv with
    | none => .error "JSONDecodeError"
    | some v => (cacheScan rest).map ((some v, true) :: ·)

/-- The to_call list of _process_batch: the flat inputs at the positions
whose re-probe missed, one occurrence per position, in flat order. -/
def toCallOf (flat : List String) (cr : List (Option CacheVal)) :
    List String :=
  ((flat.zip cr).filter (fun p => p.2.isNone)).map (·.1)

/-- The loop building to_call_indices, with the running position counter:
a missing entry appends its flat position. -/
def toCallIdxAux : Nat → List (Option CacheVal) → List Nat
  | _, [] => []
  | i, none :: cs => i :: toCallIdxAux (i + 1) cs
  | i, some _ :: cs => toCallIdxAux (i + 1) cs

/-- The to_call_indices list of _process_batch: the flat positions whose
re-probe missed, in increasing order. -/
def toCallIdx (cr : List (Option CacheVal)) : List Nat :=
  toCallIdxAux 0 cr

/-- The loop over enumerate(call_results): write the vector at
to_call_indices[idx_local] and write it through to the cache.  Indexing
to_call_indices past its end raises IndexError; a failing cache set
raises. -/
def fillCalled (st : Option Store) (keys : List String) :
    List (Option Vec) → List Nat → List Vec →
    Except String (List (Option Vec))
  | vecs, _, [] => .ok vecs
  | vecs, i :: idxs, r :: rs =>
    match st with
    | some s =>
      match storeSet s (keys.getD i "") (CacheVal.enc r) with
      | .error e => .error e
      | .ok _ => fillCalled st keys (vecs.set i (some r)) idxs rs
    | none => fillCalled none keys (vecs.set i (some r)) idxs rs
  | _, [], _ :: _ => .error "IndexError"

/-- The computation phase of _process_batch on the flat input array: keys
(computed with the adapter the for-loop variable holds after flattening,
i.e. the last item of the batch), cache re-probe, provider call on the
misses, scattered write-back.  Returns the vectors and cached flags per
flat position. -/
def phase1 (hash : String → String) (st : Option Store) (lastA : Adapter)
    (flat : List String) :
    Except String (List (Option Vec) × List Bool) := do
  let keys := flat.map (keyFor hash lastA)
  let cr ← match st with
    | some s => storeMget s keys
    | none => .ok (List.replicate flat.length none)
  let scanned ← cacheScan (flat.zip cr)
  let vecs0 := scanned.map (·.1)
  let flags := scanned.map (·.2)
  let toCall := toCallOf flat cr
  if toCall.isEmpty then
    .ok (vecs0, flags)
  else do
    let callResults ← lastA.embedBatch toCall
    let vecs ← fillCalled st keys vecs0 (toCallIdx cr) callResults
    .ok (vecs, flags)

/-- The mapping list of _process_batch: for each flat position, the
originating (job_uuid, position within the job). -/
def mappingOf (batch : List Job) : List (Nat × Nat) :=
  batch.flatMap (fun j => (List.range j.inputs.length).map (fun i => (j.id, i)))

/-- results_by_job[u]: the entries of zip(mapping, vectors, cached_flags)
whose job id is u, in flat order (dict setdefault appends in traversal
order).  An id absent from the mapping has no dict entry, so the lookup
raises KeyError. -/
def partsFor (z : List ((Nat × Nat) × (Option Vec × Bool))) (u : Nat) :
    List ((Nat × Nat) × (Option Vec × Bool)) :=
  z.filter (fun e => e.1.1 == u)

/-- The final loop of _process_batch: for each item, look its id up in
results_by_job (KeyError when absent), sort the parts by position, resolve
the future.  anyDone records whether some future in the batch already
holds a result; when the KeyError handler then calls set_exception on that
future, asyncio raises InvalidStateError and the exception escapes
_process_batch (crashed). -/
def deliverJobs (z : List ((Nat × Nat) × (Option Vec × Bool))) :
    Bool → List Job → List JobOutcome × Bool
  | _, [] => ([], false)
  | anyDone, j :: rest =>
    match partsFor z j.id with
    | [] =>
      if anyDone then
        ((j :: rest).map (fun _ => .noResponse), true)
      else
        ((j :: rest).map (fun _ => .failed "KeyError"), false)
    | e :: es =>
      let parts := (e :: es).insertionSort (fun x y => x.1.2 ≤ y.1.2)
      let r : JobResult :=
        { adapterName := j.adapter.name, adapterVersion := j.adapter.version,
          vectors := parts.map (·.2.1), cached := parts.map (·.2.2) }
      let next := deliverJobs z true rest
      (.result r :: next.1, next.2)

/-- Model of EmbedBatcher._process_batch.  An exception in the computation
phase reaches the except clause with no future resolved, so every waiter
receives it.  The delivery phase can itself raise (KeyError); deliverJobs
then decides between fan-out of the error and a crash. -/
def processBatch (hash : String → String) (st : Option Store)
    (batch : List Job) : BatchOutcome :=
  match batch with
  | [] => { outcomes := [], crashed := false }
  | b0 :: rest =>
    let lastA := (b0 :: rest).getLast (List.cons_ne_nil b0 rest)
    let flat := (b0 :: rest).flatMap (·.inputs)
    match phase1 hash st lastA.adapter flat with
    | .error e =>
      { outcomes := (b0 :: rest).map (fun _ => .failed e), crashed := false }
    | .ok (vecs, flags) =>
      let z := (mappingOf (b0 :: rest)).zip (vecs.zip flags)
      let d := deliverJobs z false (b0 :: rest)
      { outcomes := d.1, crashed := d.2 }

/-- One cycle of EmbedBatcher.run: block for the first item, then append
up to max_batch - 1 of the items that arrive within the wait window, with
no inspection of their adapters.  Returns the closed batch and the items
left for the next cycle. -/
def formBatch (maxBatch : Nat) (q : List Job) : List Job × List Job :=
  match q with
  | [] => ([], [])
  | j :: rest => (j :: rest.take (maxBatch - 1), rest.drop (maxBatch - 1))

/-- The batching loop: form a batch, dispatch it, continue with the rest of
the queue; an exception escaping _process_batch terminates the loop. -/
def runLoop (hash : String → String) (st : Option Store) (maxBatch : Nat) :
    List Job → List BatchOutcome
  | [] => []
  | j :: rest =>
    let o := processBatch hash st (j :: rest.take (maxBatch - 1))
    if o.crashed then [o]
    else o :: runLoop hash st maxBatch (rest.drop (maxBatch - 1))
termination_by q => q.length
decreasing_by
  simp only [List.length_drop, List.length_cons]
  omega

/-- The auth check of the embed route: the Authorization header, as a
character sequence, is accepted exactly when it starts with
"Bearer " followed by the configured key (str.startswith). -/
def authOk (key hdr : List Char) : Bool :=
  (("Bearer ".toList) ++ key).isPrefixOf hdr

/-- Model of the embed route body: 401 when the auth check fails, 500
carrying the message when the handler raises, 200 with the response
otherwise. -/
inductive HttpReply where
  | unauthorized
  | ok (r : EmbedResponse)
  | serverError (e : String)
deriving DecidableEq, Repr

/-- The embed endpoint given the outcome of the batcher call. -/
def embedRoute (key hdr : List Char) (res : Except String EmbedResponse) :
    HttpReply :=
  if authOk key hdr then
    match res with
    | .ok r => .ok r
    | .error e => .serverError e
  else .unauthorized

/-! Concrete adapters and stores used to evaluate the model at specific
inputs. -/

/-- An adapter returning the zero vector for every text. -/
def adA : Adapter := ⟨"A", "1", fun ts => .ok (ts.map (fun _ => [0]))⟩

/-- An adapter returning the one vector for every text; distinguishable
from adA by its output. -/
def adB : Adapter := ⟨"B", "1", fun ts => .ok (ts.map (fun _ => [1]))⟩

/-- An adapter whose every output vector records how many texts the call
received; it makes the size of the provider call observable. -/
def adCnt : Adapter :=
  ⟨"cnt", "1", fun ts => .ok (ts.map (fun _ => [(ts.length : Int)]))⟩

/-- An adapter that always returns no vectors at all: fewer than
requested whenever the input is nonempty. -/
def adShort : Adapter := ⟨"s", "1", fun _ => .ok []⟩

/-- An adapter that always returns two vectors: more than requested for a
single input. -/
def adLong : Adapter := ⟨"l", "1", fun _ => .ok [[5], [6]]⟩

/-- An adapter whose embed call always raises. -/
def adFail : Adapter := ⟨"f", "1", fun _ => .error "boom"⟩

/-- A pointwise adapter used by witnesses: every text maps to [9]. -/
def adP : Adapter := ⟨"A", "1", fun ts => .ok (ts.map (fun _ => [9]))⟩

/-- A cache table holding one entry, the vector [7] under the key of text
h under adapter identity A/1 with the identity digest. -/
def tblC : String → Option Vec := fun k => if k = "A1h" then some [7] else none

/-- A store whose multi-get raises. -/
def stMgetFail : Store := ⟨fun _ => none, true, false⟩

/-- A store every entry of which holds bytes that json.loads rejects. -/
def stMal : Store := ⟨fun _ => some .malformed, false, false⟩

/-- A store whose set raises. -/
def stSetFail : Store := ⟨fun _ => none, false, true⟩

/-! Claim theorems: concrete evaluations of the model. -/

/-- C2.  The batcher loop performs no adapter check: two items with
different adapters queued within one wait window are closed into one
batch, and _process_batch then computes every vector with the LAST item's
adapter (the for-loop variable shadows the initial adapter) while each
response reports the job's own adapter identity.  Here job 0 is labelled
A/1 but its vector is [1], the output of adapter B (adapter A returns
[0]); nothing is pushed back to start a new batch. -/
theorem claim_C2_evidence :
    (formBatch 64 [⟨0, adA, ["x"]⟩, ⟨1, adB, ["y"]⟩]).1
      = [⟨0, adA, ["x"]⟩, ⟨1, adB, ["y"]⟩] ∧
    processBatch id none [⟨0, adA, ["x"]⟩, ⟨1, adB, ["y"]⟩]
      = { outcomes := [.result ⟨"A", "1", [some [1]], [false]⟩,
                       .result ⟨"B", "1", [some [1]], [false]⟩],
          crashed := false } ∧
    adA.embedBatch ["x"] = .ok [[0]] := by
  refine ⟨rfl, by decide, rfl⟩

/-- C5.  _process_batch never compares the length of the adapter's reply
with the number of cache misses.  An adapter returning FEWER vectors than
requested does not error the batch: the batch completes and the waiter
receives a padded result whose unfilled position still holds the initial
None.  An adapter returning MORE vectors errors the batch, but only
through the IndexError of to_call_indices. -/
theorem claim_C5_evidence :
    processBatch id none [⟨0, adShort, ["a"]⟩]
      = { outcomes := [.result ⟨"s", "1", [none], [false]⟩],
          crashed := false } ∧
    processBatch id none [⟨0, adLong, ["a"]⟩]
      = { outcomes := [.failed "IndexError"], crashed := false } := by
  refine ⟨by decide, by decide⟩

/-- C4.  Cache failures are user-visible in the source: a store error on
mget aborts process_embed_request instead of degrading to all-miss; in
_process_batch a store error on mget, a stored value that json.loads
rejects, or a store error on set each reach the catch-all handler and
fail every waiter of the batch instead of being treated as a miss or
swallowed. -/
theorem claim_C4_evidence :
    processEmbedRequest id (some stMgetFail) adA ["a"]
      = .error "redis mget error" ∧
    processEmbedRequest id (some stMal) adA ["a"]
      = .error "JSONDecodeError" ∧
    processBatch id (some stMgetFail) [⟨0, adA, ["a"]⟩]
      = { outcomes := [.failed "redis mget error"], crashed := false } ∧
    processBatch id (some stMal) [⟨0, adA, ["a"]⟩]
      = { outcomes := [.failed "JSONDecodeError"], crashed := false } ∧
    processBatch id (some stSetFail) [⟨0, adA, ["a"]⟩]
      = { outcomes := [.failed "redis set error"], crashed := false } := by
  refine ⟨rfl, rfl, by decide, by decide, by decide⟩

/-- C3 counterexample.  With an empty cache, the flat inputs a, a, b all
miss and to_call keeps both occurrences of a; the adapter whose vectors
report the size of the call it received shows a call of three texts, so
embed_batch was invoked with two occurrences of the missed text a, not at
most one. -/
theorem claim_C3_counterexample :
    (toCallOf ["a", "a", "b"] (List.replicate 3 none)).count "a" = 2 ∧
    processBatch id none [⟨0, adCnt, ["a", "a", "b"]⟩]
      = { outcomes := [.result ⟨"cnt", "1",
            [some [3], some [3], some [3]], [false, false, false]⟩],
          crashed := false } := by
  refine ⟨by decide, by decide⟩

/-- C6 counterexample.  The digest is taken over the bare concatenation of
name, version and text, so distinct triples with equal concatenation
collide even under an injective (collision-free) digest function: with the
identity digest, (ab, c, d) and (a, bc, d) share the fingerprint yet name
ab differs from name a. -/
theorem claim_C6_counterexample :
    Function.Injective (id : String → String) ∧
    sha_key id ["ab", "c", "d"] = sha_key id ["a", "bc", "d"] ∧
    (("ab", "c", "d") : String × String × String) ≠ ("a", "bc", "d") := by
  refine ⟨Function.injective_id, by decide, by decide⟩

/-- C9 counterexample.  The route compares with str.startswith, so a
bearer token strictly longer than the configured key is accepted although
it is not equal to the key. -/
theorem claim_C9_counterexample :
    authOk "dev-key-change-me".toList "Bearer dev-key-change-me-x".toList
      = true ∧
    ("dev-key-change-me-x" : String) ≠ "dev-key-change-me" ∧
    embedRoute "dev-key-change-me".toList
        "Bearer dev-key-change-me-x".toList (.error "boom")
      ≠ .unauthorized := by
  refine ⟨by decide, by decide, by decide⟩

/-- C8 counterexample.  A KeyError raised while delivering results (batch
of a nonempty job followed by an empty-input job) is an exception raised
during dispatch, yet the second waiter never observes it: the first future
already holds a result, the handler's set_exception on it raises
InvalidStateError, and the loop dies instead of continuing. -/
theorem claim_C8_counterexample :
    processBatch id none [⟨0, adCnt, ["z"]⟩, ⟨1, adA, []⟩]
      = { outcomes := [.result ⟨"cnt", "1", [some [0]], [false]⟩,
                       .noResponse],
          crashed := true } ∧
    (processBatch id none [⟨0, adCnt, ["z"]⟩, ⟨1, adA, []⟩]).outcomes[1]?
      = some .noResponse ∧
    (processBatch id none [⟨0, adCnt, ["z"]⟩, ⟨1, adA, []⟩]).crashed
      = true := by
  refine ⟨by decide, by decide, by decide⟩

/-- C10 counterexample.  When the empty-input work item is not first in
its batch, the KeyError is NOT delivered to every waiter: the earlier
waiter keeps its result, the handler crashes on that resolved future, and
the empty job's own waiter receives nothing at all. -/
theorem claim_C10_counterexample :
    processBatch id none [⟨5, adA, ["q"]⟩, ⟨7, adB, []⟩]
      = { outcomes := [.result ⟨"A", "1", [some [1]], [false]⟩,
                       .noResponse],
          crashed := true } ∧
    (processBatch id none [⟨5, adA, ["q"]⟩, ⟨7, adB, []⟩]).outcomes[1]?
      = some .noResponse := by
  refine ⟨by decide, by decide⟩

theorem string_join_three (a b c : String) :
    String.join [a, b, c] = a ++ b ++ c := by
  simp [String.join]

/-- C6 amended.  Equal fingerprints imply equal concatenations of the
three parts: under a collision-free (injective) digest function, matching
sha_key outputs force name, version and text to concatenate to the same
string, though the parts themselves may differ. -/
theorem claim_C6_amended (hash : String → String)
    (hinj : Function.Injective hash) (n v t n' v' t' : String)
    (h : sha_key hash [n, v, t] = sha_key hash [n', v', t']) :
    n ++ v ++ t = n' ++ v' ++ t' := by
  have h2 := hinj h
  simpa [string_join_three] using h2

/-- Witness for C6: the amended theorem applied to the identity digest at
the colliding triples, giving the concrete concatenation equality. -/
theorem claim_C6_witness :
    ("ab" : String) ++ "c" ++ "d" = "a" ++ "bc" ++ "d" :=
  claim_C6_amended id Function.injective_id "ab" "c" "d" "a" "bc" "d" (by decide)

/-- C9 amended.  The embed auth check accepts a request exactly when its
Authorization header is the characters of Bearer-space followed by a
string that has the configured key as a prefix, and the route replies 401
exactly when the check fails. -/
theorem claim_C9_amended (key hdr : List Char)
    (res : Except String EmbedResponse) :
    (authOk key hdr = true ↔
      ∃ t, hdr = "Bearer ".toList ++ t ∧ key <+: t) ∧
    (embedRoute key hdr res = .unauthorized ↔ authOk key hdr = false) := by
  constructor
  · rw [authOk, List.isPrefixOf_iff_prefix]
    constructor
    · rintro ⟨s, hs⟩
      exact ⟨key ++ s, by rw [← hs, List.append_assoc], ⟨s, rfl⟩⟩
    · rintro ⟨t, rfl, s, rfl⟩
      exact ⟨s, by rw [List.append_assoc]⟩
  · cases h : authOk key hdr
    · simp [embedRoute, h]
    · cases res <;> simp [embedRoute, h]

/-- Witness for C9: the amended theorem at a concrete key, an accepted
longer token and a rejected header. -/
theorem claim_C9_witness :
    authOk "k".toList "Bearer kxyz".toList = true ∧
    embedRoute "k".toList "nope".toList (.error "e") = .unauthorized := by
  constructor
  · exact (claim_C9_amended "k".toList "Bearer kxyz".toList (.error "e")).1.mpr
      ⟨"kxyz".toList, by decide, by decide⟩
  · exact (claim_C9_amended "k".toList "nope".toList (.error "e")).2.mpr
      (by decide)

theorem decodeAll_map (h : String → Option Vec) (l : List String)
    (hall : ∀ t ∈ l, (h t).isSome = true) :
    decodeAll (l.map (fun t => (h t).map CacheVal.enc))
      = .ok (l.map (fun t => (h t).getD [])) := by
  induction l with
  | nil => rfl
  | cons t ts ih =>
    have ht := hall t (List.mem_cons_self t ts)
    cases hht : h t with
    | none => rw [hht] at ht; simp at ht
    | some v =>
      have ih2 := ih (fun u hu => hall u (List.mem_cons_of_mem _ hu))
      simp [hht, decodeAll, jsonDecode, ih2, Except.map]

theorem except_ok_bind {α β ε : Type} (a : α) (f : α → Except ε β) :
    (Except.ok a : Except ε α) >>= f = f a := rfl

theorem all_isSome_map_enc (g : String → Option Vec) (l : List String) :
    ((l.map (fun t => (g t).map CacheVal.enc)).all (fun x => x.isSome))
      = l.all (fun t => (g t).isSome) := by
  induction l with
  | nil => rfl
  | cons t ts ih =>
    simp only [List.map_cons, List.all_cons, ih]
    cases g t <;> rfl

/-- The submitter on a healthy cache: an all-hit probe answers directly
with every cached flag true; any miss enqueues all the inputs. -/
theorem submit_goodStore (hash : String → String) (σ : String → Option Vec)
    (a : Adapter) (inputs : List String) :
    processEmbedRequest hash (some (goodStore σ)) a inputs
      = (if inputs.all (fun t => (σ (keyFor hash a t)).isSome) then
          .ok (.fast ⟨a.name, a.version,
            inputs.map (fun t => (σ (keyFor hash a t)).getD []),
            List.replicate inputs.length true⟩)
         else .ok (.enqueued inputs)) := by
  simp only [processEmbedRequest, storeMget, goodStore, Bool.false_eq_true,
    if_false, List.map_map, Function.comp_def, except_ok_bind]
  rw [all_isSome_map_enc (fun t => σ (keyFor hash a t)) inputs]
  by_cases h : inputs.all (fun t => (σ (keyFor hash a t)).isSome) = true
  · rw [if_pos h, if_pos h]
    have hall : ∀ t ∈ inputs, (σ (keyFor hash a t)).isSome = true := by
      rw [List.all_eq_true] at h
      intro t ht
      exact h t ht
    rw [decodeAll_map (fun t => σ (keyFor hash a t)) inputs hall,
      except_ok_bind]
    rw [List.length_map]
  · rw [if_neg h, if_neg h]

theorem zip_map_self {α β : Type} (l : List α) (g : α → β) :
    l.zip (l.map g) = l.map (fun a => (a, g a)) := by
  induction l with
  | nil => rfl
  | cons a as ih => simp [ih]

theorem cacheScan_map (h : String → Option Vec) (l : List String) :
    cacheScan (l.map (fun t => (t, (h t).map CacheVal.enc)))
      = .ok (l.map (fun t => (h t, (h t).isSome))) := by
  induction l with
  | nil => rfl
  | cons t ts ih =>
    cases hht : h t with
    | none => simp [cacheScan, hht, ih, Except.map]
    | some v => simp [cacheScan, hht, ih, jsonDecode, Except.map]

theorem toCallOf_map (h : String → Option Vec) (l : List String) :
    toCallOf l (l.map (fun t => (h t).map CacheVal.enc))
      = l.filter (fun t => (h t).isNone) := by
  induction l with
  | nil => rfl
  | cons t ts ih =>
    cases hht : h t with
    | none =>
      simp only [toCallOf, List.zip_cons_cons, List.map_cons] at ih ⊢
      simp [hht, List.filter_cons, ih]
    | some v =>
      simp only [toCallOf, List.zip_cons_cons, List.map_cons] at ih ⊢
      simp [hht, List.filter_cons, ih]

theorem toCallIdxAux_shift (cr : List (Option CacheVal)) :
    ∀ i, toCallIdxAux i cr = (toCallIdxAux 0 cr).map (· + i) := by
  induction cr with
  | nil => intro i; rfl
  | cons c cs ih =>
    intro i
    cases c with
    | none =>
      simp only [toCallIdxAux, ih (i + 1), ih 1, List.map_cons,
        List.map_map, Nat.zero_add]
      congr 1
      apply List.map_congr_left
      intro x _
      simp only [Function.comp_apply]
      omega
    | some v =>
      simp only [toCallIdxAux, ih (i + 1), ih 1, List.map_map]
      apply List.map_congr_left
      intro x _
      simp only [Function.comp_apply]
      omega

theorem fillCalled_shift (st : Option Store)
    (hset : ∀ s ∈ st, s.setFails = false) (keys : List String)
    (x : Option Vec) (rs : List Vec) :
    ∀ (idxs : List Nat) (vecs : List (Option Vec)),
    fillCalled st keys (x :: vecs) (idxs.map (· + 1)) rs
      = (fillCalled st keys vecs idxs rs).map (x :: ·) := by
  induction rs with
  | nil =>
    intro idxs vecs
    simp [fillCalled, Except.map]
  | cons r rs ih =>
    intro idxs vecs
    cases idxs with
    | nil =>
      simp [fillCalled, Except.map]
    | cons i is =>
      cases st with
      | none =>
        simp only [List.map_cons, fillCalled, List.set_cons_succ]
        exact ih is (vecs.set i (some r))
      | some s =>
        have hs : s.setFails = false := hset s rfl
        simp only [List.map_cons, fillCalled, List.set_cons_succ, storeSet,
          hs, Bool.false_eq_true, if_false]
        exact ih is (vecs.set i (some r))

theorem fillCalled_main (st : Option Store)
    (hset : ∀ s ∈ st, s.setFails = false) (keys : List String)
    (h : String → Option Vec) (f : String → Vec) (flat : List String) :
    fillCalled st keys (flat.map h)
        (toCallIdxAux 0 (flat.map (fun t => (h t).map CacheVal.enc)))
        ((flat.filter (fun t => (h t).isNone)).map f)
      = .ok (flat.map (fun t => some ((h t).getD (f t)))) := by
  induction flat with
  | nil => cases st <;> rfl
  | cons t ts ih =>
    cases hht : h t with
    | some v =>
      simp only [List.map_cons, hht, Option.map_some', toCallIdxAux,
        List.filter_cons, Option.isNone_some, Bool.false_eq_true, if_false,
        cond_false]
      rw [toCallIdxAux_shift]
      rw [fillCalled_shift st hset keys (some v)]
      rw [ih]
      simp [Except.map]
    | none =>
      simp only [List.map_cons, hht, Option.map_none', toCallIdxAux,
        List.filter_cons, Option.isNone_none, cond_true]
      cases st with
      | none =>
        simp only [fillCalled, List.set_cons_zero]
        rw [toCallIdxAux_shift]
        rw [fillCalled_shift none hset keys (some (f t))]
        rw [ih]
        simp [Except.map]
      | some s =>
        have hs : s.setFails = false := hset s rfl
        simp only [fillCalled, List.set_cons_zero, storeSet, hs,
          Bool.false_eq_true, if_false]
        rw [toCallIdxAux_shift]
        rw [fillCalled_shift (some s) hset keys (some (f t))]
        rw [ih]
        simp [Except.map]

theorem phase1_goodStore (hash : String → String) (σ : String → Option Vec)
    (a : Adapter) (f : String → Vec) (flat : List String)
    (hpt : ∀ ts, a.embedBatch ts = .ok (ts.map f)) :
    phase1 hash (some (goodStore σ)) a flat
      = .ok (flat.map (fun t => some ((σ (keyFor hash a t)).getD (f t))),
             flat.map (fun t => (σ (keyFor hash a t)).isSome)) := by
  simp only [phase1, storeMget, goodStore, Bool.false_eq_true, if_false,
    except_ok_bind, List.map_map, Function.comp_def]
  rw [zip_map_self, cacheScan_map (fun t => σ (keyFor hash a t)),
    except_ok_bind]
  simp only [List.map_map, Function.comp_def]
  rw [toCallOf_map (fun t => σ (keyFor hash a t))]
  cases he : (flat.filter (fun t => (σ (keyFor hash a t)).isNone)).isEmpty with
  | true =>
    simp only [if_true]
    have hnil : flat.filter (fun t => (σ (keyFor hash a t)).isNone) = [] :=
      List.isEmpty_iff.mp he
    have hall := List.filter_eq_nil_iff.mp hnil
    have : flat.map (fun t => (σ (keyFor hash a t), (σ (keyFor hash a t)).isSome).1)
        = flat.map (fun t => some ((σ (keyFor hash a t)).getD (f t))) := by
      apply List.map_congr_left
      intro t ht
      have := hall t ht
      cases hσ : σ (keyFor hash a t) with
      | none => rw [hσ] at this; simp at this
      | some w => simp
    rw [this]
  | false =>
    simp only [Bool.false_eq_true, if_false]
    rw [hpt, except_ok_bind, toCallIdx]
    have hf := fillCalled_main (some (goodStore σ))
      (by intro s hs; simp only [Option.mem_def, Option.some.injEq] at hs;
          rw [← hs]; rfl)
      (List.map (keyFor hash a) flat) (fun t => σ (keyFor hash a t)) f flat
    simp only [goodStore] at hf
    rw [hf, except_ok_bind]

theorem zip_replicate_none (flat : List String) :
    flat.zip (List.replicate flat.length (none : Option CacheVal))
      = flat.map (fun t => (t, none)) := by
  induction flat with
  | nil => rfl
  | cons t ts ih =>
    rw [List.length_cons, List.replicate_succ, List.zip_cons_cons, ih,
      List.map_cons]

theorem toCallOf_replicate (flat : List String) :
    toCallOf flat (List.replicate flat.length none) = flat := by
  rw [toCallOf, zip_replicate_none, List.filter_map]
  simp [Function.comp_def, List.filter_true]

theorem phase1_none_adapter_error (hash : String → String) (a : Adapter)
    (flat : List String) (e : String) (hflat : flat ≠ [])
    (hfail : a.embedBatch flat = .error e) :
    phase1 hash none a flat = .error e := by
  simp only [phase1, except_ok_bind]
  have hc := cacheScan_map (fun _ => (none : Option Vec)) flat
  simp only [Option.map_none', Option.isSome_none] at hc
  rw [zip_replicate_none, hc, except_ok_bind, toCallOf_replicate]
  rw [show flat.isEmpty = false from by cases flat with
    | nil => exact absurd rfl hflat
    | cons t ts => rfl]
  simp only [Bool.false_eq_true, if_false]
  rw [hfail]
  rfl

theorem zipped_eq (batch : List Job) (W : String → Option Vec × Bool) :
    (mappingOf batch).zip ((batch.flatMap (fun j => j.inputs)).map W)
      = batch.flatMap (fun j =>
          ((List.range j.inputs.length).map (fun i => (j.id, i))).zip
            (j.inputs.map W)) := by
  induction batch with
  | nil => rfl
  | cons b bs ih =>
    simp only [mappingOf, List.flatMap_cons, List.map_append] at ih ⊢
    rw [List.zip_append (by rw [List.length_map, List.length_map,
      List.length_range]), ih]

theorem mem_seg_id {b : Job} {W : String → Option Vec × Bool}
    {e : (Nat × Nat) × (Option Vec × Bool)}
    (he : e ∈ ((List.range b.inputs.length).map (fun i => (b.id, i))).zip
      (b.inputs.map W)) : e.1.1 = b.id := by
  rcases e with ⟨⟨a1, a2⟩, w⟩
  have h1 := (List.of_mem_zip he).1
  rw [List.mem_map] at h1
  obtain ⟨i, _, hi⟩ := h1
  simp only [Prod.mk.injEq] at hi
  exact hi.1.symm

theorem partsFor_eq (W : String → Option Vec × Bool) :
    ∀ (batch : List Job), ((batch.map (fun j => j.id)).Nodup) →
    ∀ j ∈ batch,
    partsFor (batch.flatMap (fun b =>
        ((List.range b.inputs.length).map (fun i => (b.id, i))).zip
          (b.inputs.map W))) j.id
      = ((List.range j.inputs.length).map (fun i => (j.id, i))).zip
          (j.inputs.map W) := by
  intro batch
  induction batch with
  | nil => intro _ j hj; exact absurd hj (List.not_mem_nil j)
  | cons b bs ih =>
    intro hnd j hj
    rw [List.map_cons, List.nodup_cons] at hnd
    simp only [partsFor, List.flatMap_cons, List.filter_append]
    rcases List.mem_cons.mp hj with hjb | hjbs
    · subst hjb
      have h1 : (((List.range j.inputs.length).map (fun i => (j.id, i))).zip
          (j.inputs.map W)).filter (fun e => e.1.1 == j.id)
          = ((List.range j.inputs.length).map (fun i => (j.id, i))).zip
              (j.inputs.map W) := by
        rw [List.filter_eq_self]
        intro e he
        rw [mem_seg_id he]
        exact beq_self_eq_true _
      have h2 : ((bs.flatMap (fun b =>
          ((List.range b.inputs.length).map (fun i => (b.id, i))).zip
            (b.inputs.map W))).filter (fun e => e.1.1 == j.id)) = [] := by
        rw [List.filter_eq_nil_iff]
        intro e he
        rw [List.mem_flatMap] at he
        obtain ⟨b', hb', he'⟩ := he
        rw [mem_seg_id he']
        have : b'.id ≠ j.id := by
          intro hid
          exact hnd.1 (hid ▸ List.mem_map_of_mem (fun j => j.id) hb')
        simpa using this
      rw [h1, h2, List.append_nil]
    · have h1 : (((List.range b.inputs.length).map (fun i => (b.id, i))).zip
          (b.inputs.map W)).filter (fun e => e.1.1 == j.id) = [] := by
        rw [List.filter_eq_nil_iff]
        intro e he
        rw [mem_seg_id he]
        have : b.id ≠ j.id := by
          intro hid
          exact hnd.1 (hid ▸ List.mem_map_of_mem (fun j => j.id) hjbs)
        simpa using this
      have h2 := ih hnd.2 j hjbs
      rw [h1, List.nil_append]
      exact h2

theorem seg_sorted (u : Nat) (W : String → Option Vec × Bool)
    (ins : List String) :
    (((List.range ins.length).map (fun i => (u, i))).zip
      (ins.map W)).Sorted (fun x y => x.1.2 ≤ y.1.2) := by
  rw [List.Sorted, List.pairwise_iff_get]
  intro i j hij
  simp only [List.get_eq_getElem, List.getElem_zip, List.getElem_map,
    List.getElem_range]
  exact Nat.le_of_lt (Fin.lt_def.mp hij)

theorem seg_map_vec (u : Nat) (W : String → Option Vec × Bool)
    (ins : List String) :
    ((((List.range ins.length).map (fun i => (u, i))).zip
      (ins.map W)).map (fun e => e.2.1)) = ins.map (fun t => (W t).1) := by
  have h1 : (fun (e : (Nat × Nat) × (Option Vec × Bool)) => e.2.1)
      = Prod.fst ∘ Prod.snd := rfl
  rw [h1, ← List.map_map, List.map_snd_zip _ _ (by
    rw [List.length_map, List.length_map, List.length_range]),
    List.map_map]
  rfl

theorem seg_map_flag (u : Nat) (W : String → Option Vec × Bool)
    (ins : List String) :
    ((((List.range ins.length).map (fun i => (u, i))).zip
      (ins.map W)).map (fun e => e.2.2)) = ins.map (fun t => (W t).2) := by
  have h1 : (fun (e : (Nat × Nat) × (Option Vec × Bool)) => e.2.2)
      = Prod.snd ∘ Prod.snd := rfl
  rw [h1, ← List.map_map, List.map_snd_zip _ _ (by
    rw [List.length_map, List.length_map, List.length_range]),
    List.map_map]
  rfl

theorem deliverJobs_results (W : String → Option Vec × Bool)
    (z : List ((Nat × Nat) × (Option Vec × Bool))) :
    ∀ (jobs : List Job),
    (∀ j ∈ jobs, partsFor z j.id
        = ((List.range j.inputs.length).map (fun i => (j.id, i))).zip
            (j.inputs.map W) ∧ j.inputs ≠ []) →
    ∀ b, deliverJobs z b jobs
      = (jobs.map (fun j => .result ⟨j.adapter.name, j.adapter.version,
          j.inputs.map (fun t => (W t).1), j.inputs.map (fun t => (W t).2)⟩),
         false) := by
  intro jobs
  induction jobs with
  | nil => intro _ b; rfl
  | cons j js ih =>
    intro hall b
    obtain ⟨hparts, hne⟩ := hall j (List.mem_cons_self j js)
    have hsort := seg_sorted j.id W j.inputs
    cases hseg : ((List.range j.inputs.length).map (fun i => (j.id, i))).zip
        (j.inputs.map W) with
    | nil =>
      exfalso
      have hlen := congrArg List.length hseg
      rw [List.length_zip, List.length_map, List.length_map,
        List.length_range, List.length_nil, Nat.min_self] at hlen
      exact hne (List.length_eq_zero.mp hlen)
    | cons e es =>
      rw [hseg] at hparts hsort
      simp only [deliverJobs, hparts]
      rw [List.Sorted.insertionSort_eq hsort]
      rw [ih (fun j' hj' => hall j' (List.mem_cons_of_mem j hj')) true]
      rw [← hseg, seg_map_vec, seg_map_flag]
      rfl

/-- C7.  Submitter fast path: on a cache whose entries are encoded
vectors, the probe answers immediately with all cached flags true and no
enqueue exactly when every fingerprinted input hits; otherwise, and always
when no cache connection exists, ALL inputs of the request are enqueued as
one work item. -/
theorem claim_C7 (hash : String → String) (σ : String → Option Vec)
    (a : Adapter) (inputs : List String) :
    processEmbedRequest hash (some (goodStore σ)) a inputs
      = (if inputs.all (fun t => (σ (keyFor hash a t)).isSome) then
          .ok (.fast ⟨a.name, a.version,
            inputs.map (fun t => (σ (keyFor hash a t)).getD []),
            List.replicate inputs.length true⟩)
         else .ok (.enqueued inputs)) ∧
    processEmbedRequest hash none a inputs = .ok (.enqueued inputs) :=
  ⟨submit_goodStore hash σ a inputs, rfl⟩

/-- C1.  Positional fidelity: on a healthy cache, the all-hit fast path
returns one vector per input in input order, and for a dispatched batch of
jobs with distinct ids, a shared adapter and nonempty inputs whose
embed_batch maps texts pointwise, every waiter receives vectors and cached
flags of the length of its inputs with the vector at position i computed
from (or cached for) the input at position i, through flattening, the
(job-id, position) mapping and the per-job sort. -/
theorem claim_C1 :
    (∀ (hash : String → String) (σ : String → Option Vec) (a : Adapter)
        (inputs : List String),
      inputs.all (fun t => (σ (keyFor hash a t)).isSome) = true →
      processEmbedRequest hash (some (goodStore σ)) a inputs
        = .ok (.fast ⟨a.name, a.version,
            inputs.map (fun t => (σ (keyFor hash a t)).getD []),
            List.replicate inputs.length true⟩)) ∧
    (∀ (hash : String → String) (σ : String → Option Vec) (a : Adapter)
        (f : String → Vec) (batch : List Job),
      (batch.map (fun j => j.id)).Nodup →
      (∀ j ∈ batch, j.adapter = a) →
      (∀ j ∈ batch, j.inputs ≠ []) →
      (∀ ts, a.embedBatch ts = .ok (ts.map f)) →
      processBatch hash (some (goodStore σ)) batch
        = { outcomes := batch.map (fun j => .result
              ⟨j.adapter.name, j.adapter.version,
               j.inputs.map (fun t =>
                 some ((σ (keyFor hash a t)).getD (f t))),
               j.inputs.map (fun t => (σ (keyFor hash a t)).isSome)⟩),
            crashed := false }) := by
  constructor
  · intro hash σ a inputs h
    rw [submit_goodStore, if_pos h]
  · intro hash σ a f batch hnd hada hne hpt
    cases batch with
    | nil => rfl
    | cons b0 rest =>
      have hlast : ((b0 :: rest).getLast
          (List.cons_ne_nil b0 rest)).adapter = a :=
        hada _ (List.getLast_mem _)
      simp only [processBatch]
      rw [hlast, phase1_goodStore hash σ a f _ hpt]
      dsimp only
      rw [List.zip_map']
      rw [zipped_eq (b0 :: rest)
        (fun t => (some ((σ (keyFor hash a t)).getD (f t)),
                   (σ (keyFor hash a t)).isSome))]
      rw [deliverJobs_results
        (fun t => (some ((σ (keyFor hash a t)).getD (f t)),
                   (σ (keyFor hash a t)).isSome)) _ (b0 :: rest)
        (fun j hj => ⟨partsFor_eq _ (b0 :: rest) hnd j hj, hne j hj⟩) false]

/-- Witness for C1: both parts applied at a one-entry cache and concrete
jobs, evaluating to literal responses. -/
theorem claim_C1_witness :
    processEmbedRequest id (some (goodStore tblC)) adP ["h"]
      = .ok (.fast ⟨"A", "1", [[7]], [true]⟩) ∧
    processBatch id (some (goodStore tblC)) [⟨0, adP, ["h", "w"]⟩]
      = { outcomes := [.result ⟨"A", "1", [some [7], some [9]],
            [true, false]⟩], crashed := false } :=
  ⟨(claim_C1.1 id tblC adP ["h"] (by decide)).trans (by rfl),
   (claim_C1.2 id tblC adP (fun _ => [9]) [⟨0, adP, ["h", "w"]⟩]
      (by decide)
      (fun j hj => by rw [List.mem_singleton] at hj; subst hj; rfl)
      (fun j hj => by rw [List.mem_singleton] at hj; subst hj; simp)
      (fun ts => rfl)).trans (by decide)⟩

/-- C3 amended.  The to_call list handed to embed_batch keeps one
occurrence per cache-missing flat position: it equals the filter of the
flat inputs on a missing probe, so duplicate missed texts stay
duplicated. -/
theorem claim_C3_amended (hash : String → String) (σ : String → Option Vec)
    (a : Adapter) (flat : List String) :
    toCallOf flat ((flat.map (keyFor hash a)).map (goodStore σ).val)
      = flat.filter (fun t => (σ (keyFor hash a t)).isNone) := by
  rw [List.map_map]
  exact toCallOf_map (fun t => σ (keyFor hash a t)) flat

/-- C8 amended.  An adapter failure (an exception before any delivery)
fails every waiter of the batch with that same error without crashing, and
whenever a dispatch does not crash the run loop proceeds to the rest of
the queue. -/
theorem claim_C8_amended :
    (∀ (hash : String → String) (batch : List Job) (e : String)
        (hne : batch ≠ []),
      (batch.flatMap (fun j => j.inputs)) ≠ [] →
      (batch.getLast hne).adapter.embedBatch
          (batch.flatMap (fun j => j.inputs)) = .error e →
      processBatch hash none batch
        = { outcomes := batch.map (fun _ => .failed e), crashed := false }) ∧
    (∀ (hash : String → String) (st : Option Store) (maxBatch : Nat)
        (j : Job) (rest : List Job),
      (processBatch hash st (j :: rest.take (maxBatch - 1))).crashed = false →
      runLoop hash st maxBatch (j :: rest)
        = processBatch hash st (j :: rest.take (maxBatch - 1))
          :: runLoop hash st maxBatch (rest.drop (maxBatch - 1))) := by
  constructor
  · intro hash batch e hne hflat hfail
    cases batch with
    | nil => exact absurd rfl hne
    | cons b0 rest =>
      have hfail2 : ((b0 :: rest).getLast
            (List.cons_ne_nil b0 rest)).adapter.embedBatch
          ((b0 :: rest).flatMap (fun j => j.inputs)) = .error e := hfail
      simp only [processBatch]
      rw [phase1_none_adapter_error hash _ _ e hflat hfail2]
  · intro hash st maxBatch j rest h
    rw [runLoop]
    simp only [h, Bool.false_eq_true, if_false]

/-- Witness for C8: the amended theorem at a concrete failing adapter and
a two-item queue with batch size one. -/
theorem claim_C8_witness :
    processBatch id none [⟨0, adFail, ["a"]⟩, ⟨1, adFail, ["b"]⟩]
      = { outcomes := [.failed "boom", .failed "boom"], crashed := false } ∧
    runLoop id none 1 [⟨0, adFail, ["a"]⟩, ⟨1, adFail, ["b"]⟩]
      = processBatch id none [⟨0, adFail, ["a"]⟩]
        :: runLoop id none 1 [⟨1, adFail, ["b"]⟩] :=
  ⟨claim_C8_amended.1 id [⟨0, adFail, ["a"]⟩, ⟨1, adFail, ["b"]⟩] "boom"
      (List.cons_ne_nil _ _) (by decide) rfl,
   claim_C8_amended.2 id none 1 ⟨0, adFail, ["a"]⟩ [⟨1, adFail, ["b"]⟩]
      (by decide)⟩

/-- C10 amended.  Empty inputs: with a cache connection the fast path
returns the empty response without enqueuing; without one the empty item
is enqueued and its id never occurs in the origin mapping of any batch
with distinct ids; and when the empty job is FIRST in its batch the
KeyError is fanned out to every waiter of the batch. -/
theorem claim_C10_amended :
    (∀ (hash : String → String) (σ : String → Option Vec) (a : Adapter),
      processEmbedRequest hash (some (goodStore σ)) a []
        = .ok (.fast ⟨a.name, a.version, [], []⟩)) ∧
    (∀ (hash : String → String) (a : Adapter),
      processEmbedRequest hash none a [] = .ok (.enqueued [])) ∧
    (∀ (batch : List Job) (j : Job), j ∈ batch → j.inputs = [] →
      (batch.map (fun j => j.id)).Nodup →
      j.id ∉ (mappingOf batch).map (fun p => p.1)) ∧
    (processBatch id none [⟨7, adB, []⟩, ⟨5, adA, ["q"]⟩]
      = { outcomes := [.failed "KeyError", .failed "KeyError"],
          crashed := false }) := by
  refine ⟨?_, fun hash a => rfl, ?_, by decide⟩
  · intro hash σ a
    exact (submit_goodStore hash σ a []).trans rfl
  · intro batch j hj hempty hnd hmem
    rw [List.mem_map] at hmem
    obtain ⟨p, hp, hpid⟩ := hmem
    rw [mappingOf, List.mem_flatMap] at hp
    obtain ⟨b, hb, hpb⟩ := hp
    rw [List.mem_map] at hpb
    obtain ⟨i, hi, hpi⟩ := hpb
    have hbid : b.id = j.id := by rw [← hpid, ← hpi]
    have hbj : b = j := List.inj_on_of_nodup_map hnd hb hj hbid
    rw [hbj, hempty] at hi
    simp at hi

/-- Witness for C10: the amended theorem at an empty request on the
one-entry cache and at the concrete two-job mapping. -/
theorem claim_C10_witness :
    processEmbedRequest id (some (goodStore tblC)) adB []
      = .ok (.fast ⟨"B", "1", [], []⟩) ∧
    7 ∉ (mappingOf [⟨7, adB, []⟩, ⟨5, adA, ["q"]⟩]).map (fun p => p.1) :=
  ⟨claim_C10_amended.1 id tblC adB,
   claim_C10_amended.2.2.1 [⟨7, adB, []⟩, ⟨5, adA, ["q"]⟩] ⟨7, adB, []⟩
     (List.mem_cons_self _ _) rfl (by decide)⟩
